import Mathlib

/-!
Verification of the bag-containment rule program (`src/main.rs`).

The Rust source is shallowly embedded:
* `\w` / `\s` / `\d` character classes become boolean character predicates;
* the two regexes `RULE_REGEX` and `CONTENT_REGEX` become deterministic
  matchers that search split positions longest-first, mirroring the greedy
  capture semantics of `(\w+\s?)+`;
* `HashMap` / `HashSet` become association lists / duplicate-free lists in
  insertion order (the program only relies on keyed lookup and membership);
* `u64` counts become `Nat` with the explicit `2 ^ 64` bound where
  `parse::<u64>` can fail, and the descent's `u64` products, sums, the
  `+ 1u64` and the public `- 1u64` are taken modulo `2 ^ 64`, the wrapping
  semantics of a release build (a debug build panics at the same points);
* panics (`expect`, `unwrap`) become `Except` errors / a `panic` result
  constructor, and the two recursive queries take explicit fuel, with a
  `timeout`/`none` result standing for divergence of the Rust recursion.
-/

namespace Adv7

/-- `\w` of the rule regexes: a word character (modelled at ASCII). -/
def isWordChar (c : Char) : Bool := c.isAlphanum || c = '_'

/-- `\s` of the rule regexes: a whitespace character. -/
def isSpaceChar (c : Char) : Bool := c.isWhitespace

/-- The `(\w+\s?)+` matcher after its first word character. The `Bool`
state is `true` directly after a word character (the match may end,
continue the word, or take the optional space) and `false` directly after
the optional space (the match may end or must start a fresh `\w+` group). -/
def colorScan : Bool → List Char → Bool
  | _, [] => true
  | true, c :: cs =>
    if isWordChar c then colorScan true cs
    else if isSpaceChar c then colorScan false cs
    else false
  | false, c :: cs => isWordChar c && colorScan true cs

/-- Full-match of the color capture group `(\w+\s?)+`. -/
def matchesColor : List Char → Bool
  | [] => false
  | c :: cs => isWordChar c && colorScan true cs

/-- Literal-pattern test: `pat` begins `l`. -/
def startsWithL : List Char → List Char → Bool
  | [], _ => true
  | _ :: _, [] => false
  | p :: ps, c :: cs => p = c && startsWithL ps cs

/-- The fixed literal between the two captures of `RULE_REGEX`. -/
def litBagsContain : List Char := " bags contain ".data

/-- One candidate split of `RULE_REGEX` at prefix length `k`: the color
capture is `take k`, followed by the literal and a nonempty contents
capture (`.+$`, where `.` excludes newline). -/
def tryRuleSplitAt (l : List Char) (k : Nat) : Option (List Char × List Char) :=
  let P := l.take k
  let rest := l.drop k
  if startsWithL litBagsContain rest && matchesColor P then
    let S := rest.drop litBagsContain.length
    if S.isEmpty || S.any (· = '\n') then none else some (P, S)
  else none

/-- Greedy search of `RULE_REGEX` split positions, longest color first. -/
def ruleMatchAux : Nat → List Char → Option (List Char × List Char)
  | 0, l => tryRuleSplitAt l 0
  | k + 1, l =>
    match tryRuleSplitAt l (k + 1) with
    | some r => some r
    | none => ruleMatchAux k l

/-- The `RULE_REGEX` matcher: returns the `color` and `contents` captures. -/
def ruleMatch (l : List Char) : Option (List Char × List Char) :=
  ruleMatchAux l.length l

/-- The literal `bag` of `CONTENT_REGEX` (its `s?` and `\.?` are optional
and unanchored, so only the prefix `bag` constrains the match). -/
def litBag : List Char := "bag".data

/-- One candidate color capture of length `k` inside `CONTENT_REGEX`:
the capture must be followed by `\s` and the literal `bag`. -/
def tryColorAt (r : List Char) (k : Nat) : Option (List Char) :=
  let C := r.take k
  match r.drop k with
  | [] => none
  | w :: rest =>
    if isSpaceChar w && startsWithL litBag rest && matchesColor C then some C
    else none

/-- Greedy search for the `CONTENT_REGEX` color capture, longest first. -/
def colorSearchAux : Nat → List Char → Option (List Char)
  | 0, r => tryColorAt r 0
  | k + 1, r =>
    match tryColorAt r (k + 1) with
    | some C => some C
    | none => colorSearchAux k r

/-- The leading `\s?` of `CONTENT_REGEX`: one whitespace is consumed when
present (not consuming it cannot lead to a match, since `\d` follows). -/
def stripLeadSpace : List Char → List Char
  | [] => []
  | c :: cs => if isSpaceChar c then cs else c :: cs

/-- The remainder of `CONTENT_REGEX` after `^\s?`: the greedy `\d+` token
`ds` (which must be nonempty), then `\s`, then the color capture followed
by `\sbags?\.?` (unanchored at the right). -/
def contentAfterLead (ds r1 : List Char) : Option (List Char × List Char) :=
  if ds.isEmpty then none
  else
    match r1 with
    | [] => none
    | w :: r2 =>
      if isSpaceChar w then
        match colorSearchAux r2.length r2 with
        | some C => some (ds, C)
        | none => none
      else none

/-- The `CONTENT_REGEX` matcher: returns the `count` digit token and the
`color` capture. Mirrors `^\s?(?P<count>\d+)\s(?P<color>(\w+\s?)+)\sbags?\.?`. -/
def contentMatch (l : List Char) : Option (List Char × List Char) :=
  contentAfterLead ((stripLeadSpace l).takeWhile (·.isDigit))
    ((stripLeadSpace l).dropWhile (·.isDigit))

/-- Numeric value of a digit token. -/
def digitsVal (ds : List Char) : Nat :=
  ds.foldl (fun a c => a * 10 + (c.toNat - '0'.toNat)) 0

/-- Exclusive upper bound of `u64`, where `parse::<u64>` starts failing. -/
def U64LIM : Nat := 2 ^ 64

/-- `Content { count, color }` of the Rust source (`u64` count as `Nat`). -/
structure Content where
  count : Nat
  color : String
deriving DecidableEq, Repr

/-- `Bag { color, contents }` of the Rust source. -/
structure Bag where
  color : String
  contents : List Content
deriving DecidableEq, Repr

/-- Decidable equality of `Except` results, for evaluating parse outcomes. -/
instance exceptDecEq {ε α : Type} [DecidableEq ε] [DecidableEq α] :
    DecidableEq (Except ε α) := fun x y =>
  match x, y with
  | .error a, .error b =>
    if h : a = b then isTrue (by rw [h]) else isFalse (fun hc => h (Except.error.inj hc))
  | .ok a, .ok b =>
    if h : a = b then isTrue (by rw [h]) else isFalse (fun hc => h (Except.ok.inj hc))
  | .error _, .ok _ => isFalse (fun hc => Except.noConfusion hc)
  | .ok _, .error _ => isFalse (fun hc => Except.noConfusion hc)

/-- `Content::new_from_rule`: `ok none` when `CONTENT_REGEX` does not match
(the clause is dropped by the caller), `error` for the
`parse::<u64>().expect("invalid contents")` panic on a token exceeding
`u64`, `ok (some _)` otherwise. -/
def Content.new_from_rule (rule : String) : Except String (Option Content) :=
  match contentMatch rule.data with
  | none => .ok none
  | some (ds, C) =>
    let n := digitsVal ds
    if n < U64LIM then .ok (some ⟨n, String.mk C⟩)
    else .error "invalid contents"

/-- Rust `str::split(',')` on a character list. -/
def splitCommaAux : List Char → List Char → List (List Char)
  | [], acc => [acc.reverse]
  | c :: cs, acc =>
    if c = ',' then acc.reverse :: splitCommaAux cs []
    else splitCommaAux cs (c :: acc)

/-- Rust `str::split(',')`. -/
def splitComma (l : List Char) : List (List Char) := splitCommaAux l []

/-- The fold inside `Bag::new_from_rule`: parse the comma-separated clauses
in order, dropping non-matching clauses, propagating the count panic. -/
def collectContents : List (List Char) → Except String (List Content)
  | [] => .ok []
  | p :: ps =>
    match Content.new_from_rule (String.mk p) with
    | .error e => .error e
    | .ok co =>
      match collectContents ps with
      | .error e => .error e
      | .ok rest =>
        match co with
        | some ct => .ok (ct :: rest)
        | none => .ok rest

/-- `Bag::new_from_rule`: `error` models the `expect("invalid rule")` panic
on a line the outer regex rejects. -/
def Bag.new_from_rule (rule : String) : Except String Bag :=
  match ruleMatch rule.data with
  | none => .error "invalid rule"
  | some (color, contentsStr) =>
    match collectContents (splitComma contentsStr) with
    | .error e => .error e
    | .ok contents => .ok ⟨String.mk color, contents⟩

/-- `to_bags`: a failed line read (`none`) is skipped, a parse panic on a
successfully read line aborts the batch. -/
def to_bags : List (Option String) → Except String (List Bag)
  | [] => .ok []
  | none :: rest => to_bags rest
  | some l :: rest =>
    match Bag.new_from_rule l with
    | .error e => .error e
    | .ok b =>
      match to_bags rest with
      | .error e => .error e
      | .ok bs => .ok (b :: bs)

/-- `HashSet::insert` on a duplicate-free list in insertion order. -/
def insertSet {α : Type} [DecidableEq α] (l : List α) (x : α) : List α :=
  if x ∈ l then l else l ++ [x]

/-- A `HashMap<String, HashSet<String>>` as an association list. -/
abbrev CBGraph : Type := List (String × List String)

/-- A `HashMap<&str, HashSet<&Content>>` as an association list. -/
abbrev CGraph : Type := List (String × List Content)

/-- `HashMap::get` for the contained-by graph. -/
def lookupCB (g : CBGraph) (k : String) : Option (List String) :=
  (g.find? (fun p => p.1 = k)).map (fun p => p.2)

/-- `HashMap::get` for the contains graph. -/
def lookupC (g : CGraph) (k : String) : Option (List Content) :=
  (g.find? (fun p => p.1 = k)).map (fun p => p.2)

/-- The inner step of `bags_to_contained_by_graph`: ensure `key` has an
entry, then insert `v` into its container set. -/
def addContainedBy (g : CBGraph) (key v : String) : CBGraph :=
  if (g.find? (fun p => p.1 = key)).isSome then
    g.map (fun p => if p.1 = key then (p.1, insertSet p.2 v) else p)
  else g ++ [(key, insertSet [] v)]

/-- `bags_to_contained_by_graph`. -/
def bags_to_contained_by_graph (bags : List Bag) : CBGraph :=
  bags.foldl
    (fun g b => b.contents.foldl (fun g ct => addContainedBy g ct.color b.color) g)
    []

/-- `HashMap::insert`: last write wins. -/
def insertKV (g : CGraph) (k : String) (v : List Content) : CGraph :=
  g.filter (fun p => p.1 ≠ k) ++ [(k, v)]

/-- `bags_to_contains_graph`: each bag's contents collected into a set. -/
def bags_to_contains_graph (bags : List Bag) : CGraph :=
  bags.foldl (fun g b => insertKV g b.color (b.contents.foldl insertSet [])) []

/-- The `for color in contained_by` loop of `_find_potential_containers`:
skip visited colors, otherwise insert and recurse through `rec`. -/
def fpcGoF (rec : String → List String → Option (List String)) :
    List String → List String → Option (List String)
  | [], containers => some containers
  | x :: rest, containers =>
    if x ∈ containers then fpcGoF rec rest containers
    else
      match rec x (containers ++ [x]) with
      | none => none
      | some containers2 => fpcGoF rec rest containers2

/-- `_find_potential_containers` with explicit fuel: look up the direct
containers of `c` and walk them; `none` models divergence (never actually
reached, see the termination theorem). -/
def fpcAux : Nat → CBGraph → String → List String → Option (List String)
  | 0, _, _, _ => none
  | f + 1, g, c, containers =>
    match lookupCB g c with
    | none => some containers
    | some l => fpcGoF (fun x cs => fpcAux f g x cs) l containers

/-- The loop with its recursive calls at fuel `f`. -/
def fpcGo (f : Nat) (g : CBGraph) : List String → List String → Option (List String) :=
  fpcGoF (fun x cs => fpcAux f g x cs)

/-- All colors that occur in some container set of the graph: every color
the walk can ever insert. -/
def cbAllVals (g : CBGraph) : List String := g.flatMap (fun p => p.2)

/-- Enough fuel for the deepest possible walk. -/
def cbBound (g : CBGraph) : Nat := (cbAllVals g).length + 1

/-- `find_potential_containers`, run with sufficient fuel. -/
def find_potential_containers (color : String) (g : CBGraph) : List String :=
  (fpcAux (cbBound g) g color []).getD []

/-- Outcome of the weighted-descent recursion: `timeout` models divergence
of the unguarded Rust recursion, `panic` the `unwrap` on a missing color. -/
inductive BRes where
  | timeout
  | panic
  | ok (n : Nat)
deriving DecidableEq, Repr

/-- The `contents.iter().map(..).sum::<u64>()` of `_find_bag_count`,
evaluated left to right through `rec`; the first non-`ok` outcome
propagates, and each `u64` product and running sum wraps at `2 ^ 64`. -/
def bagCountSumF (rec : String → BRes) : List Content → BRes
  | [] => .ok 0
  | ct :: rest =>
    match rec ct.color with
    | .ok n =>
      match bagCountSumF rec rest with
      | .ok s => .ok ((ct.count * n % U64LIM + s) % U64LIM)
      | r => r
    | r => r

/-- `_find_bag_count` with explicit fuel: `unwrap` the contents of `c`,
return 1 for an empty set, otherwise the weighted sum plus 1 (a wrapping
`u64` addition). -/
def bagCountAux : Nat → CGraph → String → BRes
  | 0, _, _ => .timeout
  | f + 1, g, c =>
    match lookupC g c with
    | none => .panic
    | some contents =>
      if contents.isEmpty then .ok 1
      else
        match bagCountSumF (fun d => bagCountAux f g d) contents with
        | .ok s => .ok ((s + 1) % U64LIM)
        | r => r

/-- The weighted sum with its recursive calls at fuel `f`. -/
def bagCountSum (f : Nat) (g : CGraph) : List Content → BRes :=
  bagCountSumF (fun d => bagCountAux f g d)

/-- The wrapping `u64` subtraction of one: `0 - 1u64` wraps to `2^64 - 1`,
any other `u64` value decrements. -/
def wrapPred (n : Nat) : Nat := if n = 0 then U64LIM - 1 else n - 1

/-- `find_bag_count`: the inner total minus one for the outer bag; the
`- 1u64` is the wrapping `u64` subtraction. -/
def find_bag_count (f : Nat) (color : String) (g : CGraph) : BRes :=
  match bagCountAux f g color with
  | .ok n => .ok (wrapPred n)
  | r => r

/-- One direct containment step in a contained-by graph: `y` directly
contains `x`. -/
def cbStep (g : CBGraph) (x y : String) : Prop :=
  y ∈ (lookupCB g x).getD []

/-- One direct containment step in a contains graph: `x` directly
contains some bags of color `y`. -/
def cStep (g : CGraph) (x y : String) : Prop :=
  ∃ ct ∈ (lookupC g x).getD [], ct.color = y

/-- Colors the weighted descent from `c` visits. -/
def ReachC (g : CGraph) (c d : String) : Prop :=
  Relation.ReflTransGen (cStep g) c d

/-- Modelled from the spec: the recursive total `T` of §4.5, "1 (for
itself) plus the sum over its direct contents of count × (recursive total
for that content's color)", as a derivation relation `SpecTotal g c n`. -/
inductive SpecTotal (g : CGraph) : String → Nat → Prop where
  | mk : ∀ (c : String) (cl : List Content) (ns : List Nat),
      lookupC g c = some cl → cl.length = ns.length →
      (∀ p, p ∈ cl.zip ns → SpecTotal g p.1.color p.2) →
      SpecTotal g c (1 + ((cl.zip ns).map (fun p => p.1.count * p.2)).sum)

/-- The 9-line sample rule set of the tests (`TEST_RULES`). -/
def lines1 : List (Option String) :=
  [some "light red bags contain 1 bright white bag, 2 muted yellow bags.",
   some "dark orange bags contain 3 bright white bags, 4 muted yellow bags.",
   some "bright white bags contain 1 shiny gold bag.",
   some "muted yellow bags contain 2 shiny gold bags, 9 faded blue bags.",
   some "shiny gold bags contain 1 dark olive bag, 2 vibrant plum bags.",
   some "dark olive bags contain 3 faded blue bags, 4 dotted black bags.",
   some "vibrant plum bags contain 5 faded blue bags, 6 dotted black bags.",
   some "faded blue bags contain no other bags.",
   some "dotted black bags contain no other bags."]

/-- The 7-line linear-chain sample (`ALTERNATE_TEST_RULES`). -/
def lines2 : List (Option String) :=
  [some "shiny gold bags contain 2 dark red bags.",
   some "dark red bags contain 2 dark orange bags.",
   some "dark orange bags contain 2 dark yellow bags.",
   some "dark yellow bags contain 2 dark green bags.",
   some "dark green bags contain 2 dark blue bags.",
   some "dark blue bags contain 2 dark violet bags.",
   some "dark violet bags contain no other bags."]

/-- The bags parsed from the 9-line sample. -/
def bags1 : List Bag := (to_bags lines1).toOption.getD []

/-- The bags parsed from the 7-line sample. -/
def bags2 : List Bag := (to_bags lines2).toOption.getD []

/-- Contained-by graph of the 9-line sample. -/
def cbg1 : CBGraph := bags_to_contained_by_graph bags1

/-- Contains graph of the 9-line sample. -/
def cg1 : CGraph := bags_to_contains_graph bags1

/-- Contains graph of the 7-line sample. -/
def cg2 : CGraph := bags_to_contains_graph bags2

/-! ### Parser lemmas -/

theorem contentAfterLead_eq {ds r1 ds2 C} (h : contentAfterLead ds r1 = some (ds2, C)) :
    ds2 = ds ∧ ds ≠ [] := by
  unfold contentAfterLead at h
  split at h
  · exact absurd h (by simp)
  · rename_i hne
    constructor
    · split at h
      · exact absurd h (by simp)
      · split at h
        · split at h
          · injection h with h
            injection h with h1 _
            exact h1.symm
          · exact absurd h (by simp)
        · exact absurd h (by simp)
    · intro hnil
      rw [hnil] at hne
      simp at hne

theorem contentMatch_token {l ds C} (h : contentMatch l = some (ds, C)) :
    ds = (stripLeadSpace l).takeWhile (·.isDigit) ∧ ds ≠ [] := by
  unfold contentMatch at h
  obtain ⟨h1, h2⟩ := contentAfterLead_eq h
  exact ⟨h1, h1 ▸ h2⟩

theorem content_rule_drop {rule : String} (h : contentMatch rule.data = none) :
    Content.new_from_rule rule = .ok none := by
  unfold Content.new_from_rule
  rw [h]

theorem content_rule_ok {rule : String} {ct : Content}
    (h : Content.new_from_rule rule = .ok (some ct)) :
    ∃ ds C, contentMatch rule.data = some (ds, C) ∧ ds ≠ [] ∧
      ct.count = digitsVal ds ∧ ct.color = String.mk C := by
  unfold Content.new_from_rule at h
  split at h
  · exact absurd h (by simp)
  · rename_i ds C hm
    have h' : (if digitsVal ds < U64LIM then
          (Except.ok (some ⟨digitsVal ds, String.mk C⟩) : Except String (Option Content))
        else .error "invalid contents") = .ok (some ct) := h
    by_cases hlt : digitsVal ds < U64LIM
    · rw [if_pos hlt] at h'
      have h2 : some (⟨digitsVal ds, String.mk C⟩ : Content) = some ct := by
        simpa using h'
      injection h2 with h2
      refine ⟨ds, C, hm, (contentMatch_token hm).2, by rw [← h2], by rw [← h2]⟩
    · rw [if_neg hlt] at h'
      exact absurd h' (by simp)

theorem mem_collectContents {ps : List (List Char)} {cts : List Content} {ct : Content}
    (h : collectContents ps = .ok cts) (hmem : ct ∈ cts) :
    ∃ p ∈ ps, Content.new_from_rule (String.mk p) = .ok (some ct) := by
  induction ps generalizing cts with
  | nil =>
    unfold collectContents at h
    injection h with h
    rw [← h] at hmem
    exact absurd hmem (by simp)
  | cons p ps ih =>
    unfold collectContents at h
    split at h
    · exact absurd h (by simp)
    · rename_i co hco
      split at h
      · exact absurd h (by simp)
      · rename_i rest hrest
        split at h
        · rename_i ct0
          injection h with h
          rw [← h] at hmem
          cases hmem with
          | head => exact ⟨p, by simp, hco⟩
          | tail _ hmem2 =>
            obtain ⟨q, hq, hq2⟩ := ih hrest hmem2
            exact ⟨q, by simp [hq], hq2⟩
        · injection h with h
          obtain ⟨q, hq, hq2⟩ := ih (h ▸ hrest) hmem
          exact ⟨q, by simp [hq], hq2⟩

theorem content_rule_ok_val {rule : String} {ds C : List Char}
    (hm : contentMatch rule.data = some (ds, C)) (hlt : digitsVal ds < U64LIM) :
    Content.new_from_rule rule = .ok (some ⟨digitsVal ds, String.mk C⟩) := by
  unfold Content.new_from_rule
  rw [hm]
  show (if digitsVal ds < U64LIM then
      (Except.ok (some ⟨digitsVal ds, String.mk C⟩) : Except String (Option Content))
    else .error "invalid contents") = _
  rw [if_pos hlt]

theorem content_rule_overflow {rule : String} {ds C : List Char}
    (hm : contentMatch rule.data = some (ds, C)) (hge : U64LIM ≤ digitsVal ds) :
    Content.new_from_rule rule = .error "invalid contents" := by
  unfold Content.new_from_rule
  rw [hm]
  show (if digitsVal ds < U64LIM then
      (Except.ok (some ⟨digitsVal ds, String.mk C⟩) : Except String (Option Content))
    else .error "invalid contents") = _
  rw [if_neg (by omega)]

theorem content_rule_error_msg {rule : String} {e : String}
    (h : Content.new_from_rule rule = .error e) : e = "invalid contents" := by
  unfold Content.new_from_rule at h
  split at h
  · exact absurd h (by simp)
  · rename_i ds C hm
    have h2 : (if digitsVal ds < U64LIM then
        (Except.ok (some ⟨digitsVal ds, String.mk C⟩) : Except String (Option Content))
      else .error "invalid contents") = .error e := h
    split at h2
    · exact absurd h2 (by simp)
    · injection h2 with h2
      exact h2.symm

/-- The general clause semantics of the fold: when no matched clause token
overflows `u64`, the fold succeeds and keeps exactly the matching clauses,
in order, dropping the rest. -/
theorem collectContents_no_overflow {ps : List (List Char)}
    (h : ∀ p ∈ ps, ∀ ds C, contentMatch p = some (ds, C) → digitsVal ds < U64LIM) :
    collectContents ps = .ok (ps.filterMap
      (fun p => (contentMatch p).map
        (fun q => (⟨digitsVal q.1, String.mk q.2⟩ : Content)))) := by
  induction ps with
  | nil => rfl
  | cons p ps ih =>
    unfold collectContents
    cases hm : contentMatch p with
    | none =>
      rw [content_rule_drop (by simpa using hm), ih (fun q hq => h q (by simp [hq]))]
      simp [List.filterMap_cons, hm]
    | some q =>
      obtain ⟨ds, C⟩ := q
      have hlt : digitsVal ds < U64LIM := h p (by simp) ds C hm
      rw [content_rule_ok_val (by simpa using hm) hlt,
        ih (fun r hr => h r (by simp [hr]))]
      simp [List.filterMap_cons, hm]

/-- A clause whose matched token overflows `u64` makes the whole fold
fail with the count panic. -/
theorem collectContents_overflow {ps : List (List Char)}
    (h : ∃ p ∈ ps, ∃ ds C, contentMatch p = some (ds, C) ∧ U64LIM ≤ digitsVal ds) :
    collectContents ps = .error "invalid contents" := by
  induction ps with
  | nil =>
    obtain ⟨p, hp, _⟩ := h
    exact absurd hp (by simp)
  | cons p ps ih =>
    obtain ⟨q, hq, ds, C, hm, hge⟩ := h
    unfold collectContents
    rcases List.mem_cons.1 hq with rfl | hqr
    · rw [content_rule_overflow (by simpa using hm) hge]
    · cases hn : Content.new_from_rule (String.mk p) with
      | error e =>
        have he := content_rule_error_msg hn
        rw [he]
      | ok co =>
        rw [ih ⟨q, hqr, ds, C, hm, hge⟩]

theorem bag_rule_ok_parts {rule : String} {b : Bag} (h : Bag.new_from_rule rule = .ok b) :
    ∃ cp cs, ruleMatch rule.data = some (cp, cs) ∧
      collectContents (splitComma cs) = .ok b.contents ∧ b.color = String.mk cp := by
  unfold Bag.new_from_rule at h
  split at h
  · exact absurd h (by simp)
  · rename_i cp cs hm
    split at h
    · exact absurd h (by simp)
    · rename_i cts hc
      injection h with h
      exact ⟨cp, cs, hm, by rw [← h]; exact hc, by rw [← h]⟩

theorem bag_rule_eq {rule : String} {cp cs : List Char}
    (hm : ruleMatch rule.data = some (cp, cs)) :
    Bag.new_from_rule rule =
      match collectContents (splitComma cs) with
      | .error e => .error e
      | .ok contents => .ok ⟨String.mk cp, contents⟩ := by
  unfold Bag.new_from_rule
  rw [hm]


/-! ### Batch-builder semantics -/

/-- Claim C4: in `to_bags`, every line-read failure is silently skipped
with processing continuing, every successfully read line that fails the
outer rule grammar aborts the whole batch, and on success the result is
one `Bag` per successfully read line, in order. -/
theorem claim4_to_bags_error_asymmetry (lines : List (Option String)) :
    ((∀ l ∈ lines.filterMap id, ∃ b, Bag.new_from_rule l = .ok b) →
      ∃ bs, to_bags lines = .ok bs ∧
        List.Forall₂ (fun l b => Bag.new_from_rule l = .ok b) (lines.filterMap id) bs) ∧
    ((∃ l ∈ lines.filterMap id, ∀ b, Bag.new_from_rule l ≠ .ok b) →
      ∀ bs, to_bags lines ≠ .ok bs) := by
  induction lines with
  | nil =>
    refine ⟨fun _ => ⟨[], rfl, by simp⟩, fun hbad => ?_⟩
    simp at hbad
  | cons o rest ih =>
    cases o with
    | none =>
      refine ⟨fun hok => ?_, fun hbad => ?_⟩
      · obtain ⟨bs, h1, h2⟩ := ih.1 (by simpa using hok)
        exact ⟨bs, by simpa [to_bags] using h1, by simpa using h2⟩
      · intro bs
        have := ih.2 (by simpa using hbad) bs
        simpa [to_bags] using this
    | some l =>
      refine ⟨fun hok => ?_, fun hbad => ?_⟩
      · obtain ⟨b, hb⟩ := hok l (by simp)
        obtain ⟨bs, h1, h2⟩ := ih.1 (fun q hq => hok q (by simp [hq]))
        refine ⟨b :: bs, ?_, ?_⟩
        · unfold to_bags
          rw [hb, h1]
        · have heq : (some l :: rest).filterMap id = l :: rest.filterMap id := by simp
          rw [heq]
          exact List.Forall₂.cons hb h2
      · intro bs hcontra
        unfold to_bags at hcontra
        simp at hbad
        split at hcontra
        · exact absurd hcontra (by simp)
        · rename_i b hc
          rcases hbad with hbadl | hbadrest
          · exact hbadl b hc
          · split at hcontra
            · exact absurd hcontra (by simp)
            · rename_i bs2 hr
              exact ih.2 (by simpa using hbadrest) bs2 hr

/-! ### Ancestor-closure lemmas -/

theorem fpc_mono_joint : ∀ (f : Nat) (g : CBGraph),
    (∀ c cs res, fpcAux f g c cs = some res → ∀ x, x ∈ cs → x ∈ res) ∧
    (∀ l cs res, fpcGo f g l cs = some res → ∀ x, x ∈ cs → x ∈ res) := by
  intro f
  induction f with
  | zero =>
    intro g
    refine ⟨fun c cs res h => by simp [fpcAux] at h, ?_⟩
    intro l
    induction l with
    | nil =>
      intro cs res h x hx
      unfold fpcGo fpcGoF at h
      injection h with h
      rw [← h]
      exact hx
    | cons y rest ihl =>
      intro cs res h x hx
      unfold fpcGo fpcGoF at h
      split at h
      · exact ihl cs res h x hx
      · simp [fpcAux] at h
  | succ f ihf =>
    intro g
    have A : ∀ c cs res, fpcAux (f + 1) g c cs = some res → ∀ x, x ∈ cs → x ∈ res := by
      intro c cs res h x hx
      unfold fpcAux at h
      split at h
      · injection h with h
        rw [← h]
        exact hx
      · exact (ihf g).2 _ cs res h x hx
    refine ⟨A, ?_⟩
    intro l
    induction l with
    | nil =>
      intro cs res h x hx
      unfold fpcGo fpcGoF at h
      injection h with h
      rw [← h]
      exact hx
    | cons y rest ihl =>
      intro cs res h x hx
      unfold fpcGo fpcGoF at h
      split at h
      · exact ihl cs res h x hx
      · rename_i hy
        split at h
        · exact absurd h (by simp)
        · rename_i cs2 hcs2
          exact ihl cs2 res h x (A y (cs ++ [y]) cs2 hcs2 x (List.mem_append_left _ hx))

theorem fpc_sound_joint : ∀ (f : Nat) (g : CBGraph),
    (∀ c cs res, fpcAux f g c cs = some res →
      ∀ x, x ∈ res → x ∈ cs ∨ Relation.TransGen (cbStep g) c x) ∧
    (∀ l cs res, fpcGo f g l cs = some res →
      ∀ x, x ∈ res → x ∈ cs ∨ ∃ y, y ∈ l ∧ (x = y ∨ Relation.TransGen (cbStep g) y x)) := by
  intro f
  induction f with
  | zero =>
    intro g
    refine ⟨fun c cs res h => by simp [fpcAux] at h, ?_⟩
    intro l
    induction l with
    | nil =>
      intro cs res h x hx
      unfold fpcGo fpcGoF at h
      injection h with h
      rw [← h] at hx
      exact Or.inl hx
    | cons y rest ihl =>
      intro cs res h x hx
      unfold fpcGo fpcGoF at h
      split at h
      · rcases ihl cs res h x hx with hc | ⟨z, hz, hxz⟩
        · exact Or.inl hc
        · exact Or.inr ⟨z, List.mem_cons_of_mem _ hz, hxz⟩
      · simp [fpcAux] at h
  | succ f ihf =>
    intro g
    have A : ∀ c cs res, fpcAux (f + 1) g c cs = some res →
        ∀ x, x ∈ res → x ∈ cs ∨ Relation.TransGen (cbStep g) c x := by
      intro c cs res h x hx
      unfold fpcAux at h
      split at h
      · injection h with h
        rw [← h] at hx
        exact Or.inl hx
      · rename_i l hl
        rcases (ihf g).2 l cs res h x hx with hc | ⟨y, hy, hxy⟩
        · exact Or.inl hc
        · have hstep : cbStep g c y := by
            unfold cbStep
            rw [hl]
            exact hy
          rcases hxy with rfl | htg
          · exact Or.inr (Relation.TransGen.single hstep)
          · exact Or.inr (Relation.TransGen.head hstep htg)
    refine ⟨A, ?_⟩
    intro l
    induction l with
    | nil =>
      intro cs res h x hx
      unfold fpcGo fpcGoF at h
      injection h with h
      rw [← h] at hx
      exact Or.inl hx
    | cons y rest ihl =>
      intro cs res h x hx
      unfold fpcGo fpcGoF at h
      split at h
      · rcases ihl cs res h x hx with hc | ⟨z, hz, hxz⟩
        · exact Or.inl hc
        · exact Or.inr ⟨z, List.mem_cons_of_mem _ hz, hxz⟩
      · split at h
        · exact absurd h (by simp)
        · rename_i cs2 hcs2
          rcases ihl cs2 res h x hx with hc2 | ⟨z, hz, hxz⟩
          · rcases A y (cs ++ [y]) cs2 hcs2 x hc2 with hcy | htg
            · rcases List.mem_append.1 hcy with hc | hy1
              · exact Or.inl hc
              · exact Or.inr ⟨y, List.mem_cons_self _ _, Or.inl (List.mem_singleton.1 hy1)⟩
            · exact Or.inr ⟨y, List.mem_cons_self _ _, Or.inr htg⟩
          · exact Or.inr ⟨z, List.mem_cons_of_mem _ hz, hxz⟩

theorem fpc_closed_joint : ∀ (f : Nat) (g : CBGraph),
    (∀ c cs res, fpcAux f g c cs = some res →
      (∀ y, cbStep g c y → y ∈ res) ∧
      (∀ x, x ∈ res → x ∉ cs → ∀ y, cbStep g x y → y ∈ res)) ∧
    (∀ l cs res, fpcGo f g l cs = some res →
      (∀ x, x ∈ l → x ∈ res) ∧
      (∀ x, x ∈ res → x ∉ cs → ∀ y, cbStep g x y → y ∈ res)) := by
  intro f
  induction f with
  | zero =>
    intro g
    refine ⟨fun c cs res h => by simp [fpcAux] at h, ?_⟩
    intro l
    induction l with
    | nil =>
      intro cs res h
      unfold fpcGo fpcGoF at h
      injection h with h
      refine ⟨fun x hx => absurd hx (by simp), fun x hx hncs => ?_⟩
      rw [← h] at hx
      exact absurd hx hncs
    | cons y rest ihl =>
      intro cs res h
      unfold fpcGo fpcGoF at h
      split at h
      · rename_i hy
        obtain ⟨hsub, hcl⟩ := ihl cs res h
        refine ⟨fun x hx => ?_, hcl⟩
        rcases List.mem_cons.1 hx with rfl | hxr
        · exact (fpc_mono_joint 0 g).2 rest cs res h x hy
        · exact hsub x hxr
      · simp [fpcAux] at h
  | succ f ihf =>
    intro g
    have A : ∀ c cs res, fpcAux (f + 1) g c cs = some res →
        (∀ y, cbStep g c y → y ∈ res) ∧
        (∀ x, x ∈ res → x ∉ cs → ∀ y, cbStep g x y → y ∈ res) := by
      intro c cs res h
      unfold fpcAux at h
      split at h
      · rename_i hl
        injection h with h
        refine ⟨fun y hy => ?_, fun x hx hncs => ?_⟩
        · unfold cbStep at hy
          rw [hl] at hy
          exact absurd hy (by simp)
        · rw [← h] at hx
          exact absurd hx hncs
      · rename_i l hl
        obtain ⟨hsub, hcl⟩ := (ihf g).2 l cs res h
        refine ⟨fun y hy => ?_, hcl⟩
        unfold cbStep at hy
        rw [hl] at hy
        exact hsub y hy
    refine ⟨A, ?_⟩
    intro l
    induction l with
    | nil =>
      intro cs res h
      unfold fpcGo fpcGoF at h
      injection h with h
      refine ⟨fun x hx => absurd hx (by simp), fun x hx hncs => ?_⟩
      rw [← h] at hx
      exact absurd hx hncs
    | cons y rest ihl =>
      intro cs res h
      unfold fpcGo fpcGoF at h
      split at h
      · rename_i hy
        obtain ⟨hsub, hcl⟩ := ihl cs res h
        refine ⟨fun x hx => ?_, hcl⟩
        rcases List.mem_cons.1 hx with rfl | hxr
        · exact (fpc_mono_joint (f + 1) g).2 rest cs res h x hy
        · exact hsub x hxr
      · rename_i hy
        split at h
        · exact absurd h (by simp)
        · rename_i cs2 hcs2
          obtain ⟨hstepy, hclosedy⟩ := A y (cs ++ [y]) cs2 hcs2
          obtain ⟨hsub, hcl⟩ := ihl cs2 res h
          have hmono2 : ∀ x, x ∈ cs2 → x ∈ res :=
            (fpc_mono_joint (f + 1) g).2 rest cs2 res h
          have hmono1 : ∀ x, x ∈ cs ++ [y] → x ∈ cs2 :=
            (fpc_mono_joint (f + 1) g).1 y (cs ++ [y]) cs2 hcs2
          refine ⟨fun x hx => ?_, fun z hzres hzcs w hstep => ?_⟩
          · rcases List.mem_cons.1 hx with rfl | hxr
            · exact hmono2 x (hmono1 x (List.mem_append_right _ (by simp)))
            · exact hsub x hxr
          · by_cases hz2 : z ∈ cs2
            · by_cases hzy : z = y
              · rw [hzy] at hstep
                exact hmono2 w (hstepy w hstep)
              · have hznot : z ∉ cs ++ [y] := by
                  intro hmem
                  rcases List.mem_append.1 hmem with hc | h1
                  · exact hzcs hc
                  · exact hzy (List.mem_singleton.1 h1)
                exact hmono2 w (hclosedy z hz2 hznot w hstep)
            · exact hcl z hzres hz2 w hstep

theorem mem_cbAllVals {g : CBGraph} {p : String × List String} (hp : p ∈ g) {x : String}
    (hx : x ∈ p.2) : x ∈ cbAllVals g := by
  induction g with
  | nil => exact absurd hp (by simp)
  | cons q rest ih =>
    have : cbAllVals (q :: rest) = q.2 ++ cbAllVals rest := rfl
    rw [this]
    rcases List.mem_cons.1 hp with rfl | hpr
    · exact List.mem_append_left _ hx
    · exact List.mem_append_right _ (ih hpr)

theorem lookupCB_subset {g : CBGraph} {c : String} {l : List String}
    (h : lookupCB g c = some l) : ∀ x ∈ l, x ∈ cbAllVals g := by
  intro x hx
  unfold lookupCB at h
  cases hf : g.find? (fun p => p.1 = c) with
  | none => rw [hf] at h; exact absurd h (by simp)
  | some p =>
    rw [hf] at h
    injection h with h
    have h2 : p.2 = l := h
    exact mem_cbAllVals (List.mem_of_find?_eq_some hf) (h2 ▸ hx)

/-- The number of graph colors the walk can still insert. -/
def remCount (g : CBGraph) (cs : List String) : Nat :=
  ((cbAllVals g).toFinset.filter (fun v => v ∉ cs)).card

theorem remCount_lt {g : CBGraph} {cs : List String} {x : String}
    (hx : x ∈ cbAllVals g) (hncs : x ∉ cs) : remCount g (cs ++ [x]) < remCount g cs := by
  apply Finset.card_lt_card
  rw [Finset.ssubset_iff_of_subset]
  · refine ⟨x, ?_, ?_⟩
    · exact Finset.mem_filter.2 ⟨List.mem_toFinset.2 hx, hncs⟩
    · intro hmem
      exact (Finset.mem_filter.1 hmem).2 (List.mem_append_right _ (by simp))
  · intro v hv
    obtain ⟨hv1, hv2⟩ := Finset.mem_filter.1 hv
    exact Finset.mem_filter.2 ⟨hv1, fun hc => hv2 (List.mem_append_left _ hc)⟩

theorem remCount_anti {g : CBGraph} {cs cs2 : List String}
    (hsub : ∀ v ∈ cs, v ∈ cs2) : remCount g cs2 ≤ remCount g cs := by
  apply Finset.card_le_card
  intro v hv
  obtain ⟨hv1, hv2⟩ := Finset.mem_filter.1 hv
  exact Finset.mem_filter.2 ⟨hv1, fun hc => hv2 (hsub v hc)⟩

theorem fpc_fuel_joint : ∀ (f : Nat) (g : CBGraph),
    (∀ c cs, remCount g cs < f → fpcAux f g c cs ≠ none) ∧
    (∀ l cs, (∀ x ∈ l, x ∈ cbAllVals g) → remCount g cs ≤ f → fpcGo f g l cs ≠ none) := by
  intro f
  induction f with
  | zero =>
    intro g
    refine ⟨fun c cs h => absurd h (by simp), ?_⟩
    intro l
    induction l with
    | nil => intro cs _ _; simp [fpcGo, fpcGoF]
    | cons y rest ihl =>
      intro cs hvals hle
      unfold fpcGo fpcGoF
      split
      · exact ihl cs (fun x hx => hvals x (List.mem_cons_of_mem _ hx)) hle
      · rename_i hy
        have hpos : 0 < remCount g cs := by
          apply Finset.card_pos.2
          exact ⟨y, Finset.mem_filter.2 ⟨List.mem_toFinset.2 (hvals y (by simp)), hy⟩⟩
        omega
  | succ f ihf =>
    intro g
    have A : ∀ c cs, remCount g cs < f + 1 → fpcAux (f + 1) g c cs ≠ none := by
      intro c cs hlt
      unfold fpcAux
      split
      · simp
      · rename_i l hl
        exact (ihf g).2 l cs (lookupCB_subset hl) (by omega)
    refine ⟨A, ?_⟩
    intro l
    induction l with
    | nil => intro cs _ _; simp [fpcGo, fpcGoF]
    | cons y rest ihl =>
      intro cs hvals hle
      unfold fpcGo fpcGoF
      split
      · exact ihl cs (fun x hx => hvals x (List.mem_cons_of_mem _ hx)) hle
      · rename_i hy
        have hylt : remCount g (cs ++ [y]) < remCount g cs :=
          remCount_lt (hvals y (by simp)) hy
        cases hcs2 : fpcAux (f + 1) g y (cs ++ [y]) with
        | none => exact absurd hcs2 (A y (cs ++ [y]) (by omega))
        | some cs2 =>
          have hmono : ∀ v ∈ cs ++ [y], v ∈ cs2 :=
            (fpc_mono_joint (f + 1) g).1 y (cs ++ [y]) cs2 hcs2
          have : remCount g cs2 ≤ remCount g (cs ++ [y]) := remCount_anti hmono
          exact ihl cs2 (fun x hx => hvals x (List.mem_cons_of_mem _ hx)) (by omega)

theorem fpcAux_total (g : CBGraph) (c : String) :
    ∃ res, fpcAux (cbBound g) g c [] = some res := by
  have hlt : remCount g [] < cbBound g := by
    have h1 : remCount g [] ≤ (cbAllVals g).toFinset.card :=
      Finset.card_le_card (Finset.filter_subset _ _)
    have h2 : (cbAllVals g).toFinset.card ≤ (cbAllVals g).length :=
      List.toFinset_card_le _
    unfold cbBound
    omega
  cases h : fpcAux (cbBound g) g c [] with
  | none => exact absurd h ((fpc_fuel_joint (cbBound g) g).1 c [] hlt)
  | some res => exact ⟨res, rfl⟩

theorem find_pc_eq (g : CBGraph) (c : String) :
    fpcAux (cbBound g) g c [] = some (find_potential_containers c g) := by
  obtain ⟨res, hres⟩ := fpcAux_total g c
  unfold find_potential_containers
  rw [hres]
  rfl

/-- Membership in the computed closure is exactly transitive containment. -/
theorem mem_fpc_iff (g : CBGraph) (t x : String) :
    x ∈ find_potential_containers t g ↔ Relation.TransGen (cbStep g) t x := by
  have hres := find_pc_eq g t
  constructor
  · intro hx
    rcases (fpc_sound_joint (cbBound g) g).1 t [] _ hres x hx with hc | htg
    · exact absurd hc (by simp)
    · exact htg
  · intro htg
    have hcl := (fpc_closed_joint (cbBound g) g).1 t [] _ hres
    induction htg with
    | single hstep => exact hcl.1 _ hstep
    | tail _ hstep ih => exact hcl.2 _ ih (by simp) _ hstep

/-! ### Weighted-descent lemmas -/

theorem bagCountAux_zero (g : CGraph) (c : String) : bagCountAux 0 g c = .timeout := by
  unfold bagCountAux
  rfl

theorem bagCountAux_none {f : Nat} {g : CGraph} {c : String} (hl : lookupC g c = none) :
    bagCountAux (f + 1) g c = .panic := by
  unfold bagCountAux
  rw [hl]

theorem bagCountAux_nil {f : Nat} {g : CGraph} {c : String} (hl : lookupC g c = some []) :
    bagCountAux (f + 1) g c = .ok 1 := by
  unfold bagCountAux
  rw [hl]
  rfl

theorem bagCountAux_cons {f : Nat} {g : CGraph} {c : String} {ct : Content}
    {rest : List Content} (hl : lookupC g c = some (ct :: rest)) :
    bagCountAux (f + 1) g c =
      match bagCountSum f g (ct :: rest) with
      | .ok s => .ok ((s + 1) % U64LIM)
      | r => r := by
  unfold bagCountAux
  rw [hl]
  rfl

theorem bagCountSum_nil (f : Nat) (g : CGraph) : bagCountSum f g [] = .ok 0 := rfl

theorem bagCountSum_cons (f : Nat) (g : CGraph) (ct : Content) (rest : List Content) :
    bagCountSum f g (ct :: rest) =
      match bagCountAux f g ct.color with
      | .ok n =>
        match bagCountSum f g rest with
        | .ok s => .ok ((ct.count * n % U64LIM + s) % U64LIM)
        | r => r
      | r => r := rfl

theorem bc_mono_joint : ∀ (f : Nat) (g : CGraph),
    (∀ f2 c n, f ≤ f2 → bagCountAux f g c = .ok n → bagCountAux f2 g c = .ok n) ∧
    (∀ f2 l s, f ≤ f2 → bagCountSum f g l = .ok s → bagCountSum f2 g l = .ok s) := by
  intro f
  induction f with
  | zero =>
    intro g
    refine ⟨fun f2 c n _ h => by rw [bagCountAux_zero] at h; exact absurd h (by simp), ?_⟩
    intro f2 l
    induction l with
    | nil => intro s _ h; rw [bagCountSum_nil] at h; rw [bagCountSum_nil]; exact h
    | cons ct rest ihl =>
      intro s _ h
      rw [bagCountSum_cons, bagCountAux_zero] at h
      exact absurd h (by simp)
  | succ f ihf =>
    intro g
    have A : ∀ f2 c n, f + 1 ≤ f2 → bagCountAux (f + 1) g c = .ok n →
        bagCountAux f2 g c = .ok n := by
      intro f2 c n hle h
      cases f2 with
      | zero => omega
      | succ f2 =>
        cases hl : lookupC g c with
        | none =>
          rw [bagCountAux_none hl] at h
          exact absurd h (by simp)
        | some cl =>
          cases cl with
          | nil =>
            rw [bagCountAux_nil hl] at h
            rw [bagCountAux_nil hl]
            exact h
          | cons ct rest =>
            rw [bagCountAux_cons hl] at h
            rw [bagCountAux_cons hl]
            cases hs : bagCountSum f g (ct :: rest) with
            | ok s =>
              rw [hs] at h
              rw [(ihf g).2 f2 (ct :: rest) s (by omega) hs]
              exact h
            | timeout => rw [hs] at h; exact absurd h (by simp)
            | panic => rw [hs] at h; exact absurd h (by simp)
    refine ⟨A, ?_⟩
    intro f2 l
    induction l with
    | nil => intro s _ h; rw [bagCountSum_nil] at h; rw [bagCountSum_nil]; exact h
    | cons ct rest ihl =>
      intro s hle h
      rw [bagCountSum_cons] at h
      rw [bagCountSum_cons]
      cases ha : bagCountAux (f + 1) g ct.color with
      | ok n =>
        rw [ha] at h
        rw [A f2 ct.color n hle ha]
        cases hs : bagCountSum (f + 1) g rest with
        | ok s2 =>
          rw [hs] at h
          rw [ihl s2 hle hs]
          exact h
        | timeout => rw [hs] at h; exact absurd h (by simp)
        | panic => rw [hs] at h; exact absurd h (by simp)
      | timeout => rw [ha] at h; exact absurd h (by simp)
      | panic => rw [ha] at h; exact absurd h (by simp)

theorem wrapPred_of_pos {n : Nat} (h : 1 ≤ n) : wrapPred n = n - 1 := by
  unfold wrapPred
  rw [if_neg (by omega)]

theorem find_bag_count_ok {f : Nat} {c : String} {g : CGraph} {n : Nat}
    (h : bagCountAux f g c = .ok n) :
    find_bag_count f c g = .ok (wrapPred n) := by
  unfold find_bag_count
  rw [h]

theorem find_bag_count_ok_inv {f : Nat} {c : String} {g : CGraph} {m : Nat}
    (h : find_bag_count f c g = .ok m) :
    ∃ n, bagCountAux f g c = .ok n ∧ m = wrapPred n := by
  unfold find_bag_count at h
  cases ha : bagCountAux f g c with
  | ok n =>
    rw [ha] at h
    refine ⟨n, rfl, ?_⟩
    have : BRes.ok (wrapPred n) = BRes.ok m := h
    injection this with h2
    exact h2.symm
  | timeout => rw [ha] at h; exact absurd h (by simp)
  | panic => rw [ha] at h; exact absurd h (by simp)

theorem bc_noRes_joint : ∀ (f : Nat) (g : CGraph),
    (∀ c n, (∃ d, ReachC g c d ∧ lookupC g d = none) → bagCountAux f g c ≠ .ok n) ∧
    (∀ l s, (∃ ct, ct ∈ l ∧ ∃ d, ReachC g ct.color d ∧ lookupC g d = none) →
      bagCountSum f g l ≠ .ok s) := by
  intro f
  induction f with
  | zero =>
    intro g
    refine ⟨fun c n _ h => by rw [bagCountAux_zero] at h; exact absurd h (by simp), ?_⟩
    intro l s hbad h
    obtain ⟨ct, hct, _⟩ := hbad
    cases l with
    | nil => exact absurd hct (by simp)
    | cons ct0 rest =>
      rw [bagCountSum_cons, bagCountAux_zero] at h
      exact absurd h (by simp)
  | succ f ihf =>
    intro g
    have A : ∀ c n, (∃ d, ReachC g c d ∧ lookupC g d = none) →
        bagCountAux (f + 1) g c ≠ .ok n := by
      intro c n ⟨d, hreach, hmiss⟩ h
      cases hl : lookupC g c with
      | none =>
        rw [bagCountAux_none hl] at h
        exact absurd h (by simp)
      | some cl =>
        rcases Relation.ReflTransGen.cases_head hreach with rfl | ⟨e, hstep, hreach2⟩
        · rw [hl] at hmiss
          exact absurd hmiss (by simp)
        · obtain ⟨ct, hctmem, hcte⟩ := hstep
          rw [hl] at hctmem
          have hctmem : ct ∈ cl := hctmem
          cases cl with
          | nil => exact absurd hctmem (by simp)
          | cons ct0 rest =>
            rw [bagCountAux_cons hl] at h
            cases hs : bagCountSum f g (ct0 :: rest) with
            | ok s =>
              exact (ihf g).2 (ct0 :: rest) s
                ⟨ct, hctmem, d, hcte ▸ hreach2, hmiss⟩ hs
            | timeout => rw [hs] at h; exact absurd h (by simp)
            | panic => rw [hs] at h; exact absurd h (by simp)
    refine ⟨A, ?_⟩
    intro l
    induction l with
    | nil =>
      intro s hbad _
      obtain ⟨ct, hct, _⟩ := hbad
      exact absurd hct (by simp)
    | cons ct0 rest ihl =>
      intro s hbad h
      obtain ⟨ct, hct, d, hreach, hmiss⟩ := hbad
      rw [bagCountSum_cons] at h
      cases ha : bagCountAux (f + 1) g ct0.color with
      | ok n =>
        rw [ha] at h
        rcases List.mem_cons.1 hct with rfl | hctr
        · exact A ct.color n ⟨d, hreach, hmiss⟩ ha
        · cases hs : bagCountSum (f + 1) g rest with
          | ok s2 => exact ihl s2 ⟨ct, hctr, d, hreach, hmiss⟩ hs
          | timeout => rw [hs] at h; exact absurd h (by simp)
          | panic => rw [hs] at h; exact absurd h (by simp)
      | timeout => rw [ha] at h; exact absurd h (by simp)
      | panic => rw [ha] at h; exact absurd h (by simp)

theorem bc_sum_of_children (g : CGraph) (l : List Content)
    (h : ∀ ct ∈ l, ∃ f n, bagCountAux f g ct.color = .ok n) :
    ∃ F s, bagCountSum F g l = .ok s := by
  induction l with
  | nil => exact ⟨0, 0, bagCountSum_nil 0 g⟩
  | cons ct rest ih =>
    obtain ⟨f1, n1, h1⟩ := h ct (by simp)
    obtain ⟨F2, s2, h2⟩ := ih (fun x hx => h x (List.mem_cons_of_mem _ hx))
    refine ⟨max f1 F2, (ct.count * n1 % U64LIM + s2) % U64LIM, ?_⟩
    rw [bagCountSum_cons,
      (bc_mono_joint f1 g).1 (max f1 F2) ct.color n1 (Nat.le_max_left _ _) h1,
      (bc_mono_joint F2 g).2 (max f1 F2) rest s2 (Nat.le_max_right _ _) h2]

/-- All colors that occur inside some stored content set of the graph:
every color the descent can step to. -/
def cAllColors (g : CGraph) : List String :=
  g.foldr (fun p acc => p.2.map Content.color ++ acc) []

theorem mem_cAllColors {g : CGraph} {p : String × List Content} (hp : p ∈ g) {ct : Content}
    (hct : ct ∈ p.2) : ct.color ∈ cAllColors g := by
  induction g with
  | nil => exact absurd hp (by simp)
  | cons q rest ih =>
    have : cAllColors (q :: rest) = q.2.map Content.color ++ cAllColors rest := rfl
    rw [this]
    rcases List.mem_cons.1 hp with rfl | hpr
    · exact List.mem_append_left _ (List.mem_map_of_mem _ hct)
    · exact List.mem_append_right _ (ih hpr)

theorem lookupC_content_mem {g : CGraph} {c : String} {l : List Content}
    (h : lookupC g c = some l) {ct : Content} (hct : ct ∈ l) : ct.color ∈ cAllColors g := by
  unfold lookupC at h
  cases hf : g.find? (fun p => p.1 = c) with
  | none => rw [hf] at h; exact absurd h (by simp)
  | some p =>
    rw [hf] at h
    injection h with h
    have h2 : p.2 = l := h
    exact mem_cAllColors (List.mem_of_find?_eq_some hf) (h2 ▸ hct)

theorem reach_mem_colors {g : CGraph} {c d : String} (h : ReachC g c d) :
    d = c ∨ d ∈ cAllColors g := by
  induction h with
  | refl => exact Or.inl rfl
  | tail _ hstep ih =>
    obtain ⟨ct, hctmem, hcte⟩ := hstep
    rename_i b _ _
    cases hl : lookupC g b with
    | none => rw [hl] at hctmem; exact absurd hctmem (by simp)
    | some l =>
      rw [hl] at hctmem
      exact Or.inr (hcte ▸ lookupC_content_mem hl hctmem)

theorem bc_success : ∀ (k : Nat) (s : Finset String) (g : CGraph) (c : String),
    s.card ≤ k →
    (∀ d, ReachC g c d → d ∈ s) →
    (∀ d, ReachC g c d → (lookupC g d).isSome) →
    (∀ d, ReachC g c d → ¬ Relation.TransGen (cStep g) d d) →
    ∃ f n, bagCountAux f g c = .ok n := by
  intro k
  induction k with
  | zero =>
    intro s g c hcard hsub _ _
    have hc : c ∈ s := hsub c Relation.ReflTransGen.refl
    have : 0 < s.card := Finset.card_pos.2 ⟨c, hc⟩
    omega
  | succ k ih =>
    intro s g c hcard hsub hpres hacyc
    have hcs : (lookupC g c).isSome := hpres c Relation.ReflTransGen.refl
    obtain ⟨cl, hl⟩ := Option.isSome_iff_exists.1 hcs
    have hchild : ∀ ct ∈ cl, ∃ f n, bagCountAux f g ct.color = .ok n := by
      intro ct hct
      have hstep : cStep g c ct.color := by
        refine ⟨ct, ?_, rfl⟩
        rw [hl]
        exact hct
      have hreachsub : ∀ d, ReachC g ct.color d → ReachC g c d := fun d hd =>
        Relation.ReflTransGen.head hstep hd
      have hnotc : ∀ d, ReachC g ct.color d → d ≠ c := by
        intro d hd hdc
        exact hacyc c Relation.ReflTransGen.refl
          (Relation.TransGen.head' hstep (hdc ▸ hd))
      refine ih (s.erase c) g ct.color ?_ ?_ ?_ ?_
      · rw [Finset.card_erase_of_mem (hsub c Relation.ReflTransGen.refl)]
        omega
      · intro d hd
        exact Finset.mem_erase.2 ⟨hnotc d hd, hsub d (hreachsub d hd)⟩
      · exact fun d hd => hpres d (hreachsub d hd)
      · exact fun d hd => hacyc d (hreachsub d hd)
    obtain ⟨F, s0, hsum⟩ := bc_sum_of_children g cl hchild
    cases cl with
    | nil => exact ⟨1, 1, bagCountAux_nil hl⟩
    | cons ct rest =>
      refine ⟨F + 1, (s0 + 1) % U64LIM, ?_⟩
      rw [bagCountAux_cons hl, hsum]

/-- Completeness plus acyclicity of the reachable part makes the
descent succeed with enough fuel. -/
theorem bc_complete_acyclic (g : CGraph) (c : String)
    (hpres : ∀ d, ReachC g c d → (lookupC g d).isSome)
    (hacyc : ∀ d, ReachC g c d → ¬ Relation.TransGen (cStep g) d d) :
    ∃ f n, bagCountAux f g c = .ok n := by
  refine bc_success ((cAllColors g).length + 1) (insert c (cAllColors g).toFinset) g c ?_
    ?_ hpres hacyc
  · have h1 : (insert c (cAllColors g).toFinset).card ≤ (cAllColors g).toFinset.card + 1 :=
      Finset.card_insert_le _ _
    have h2 : (cAllColors g).toFinset.card ≤ (cAllColors g).length :=
      List.toFinset_card_le _
    omega
  · intro d hd
    rcases reach_mem_colors hd with rfl | hmem
    · exact Finset.mem_insert_self _ _
    · exact Finset.mem_insert.2 (Or.inr (List.mem_toFinset.2 hmem))

/-- Every successful inner total lies in the `u64` range. -/
theorem bagCountAux_ok_lt {f : Nat} {g : CGraph} {c : String} {n : Nat}
    (h : bagCountAux f g c = .ok n) : n < U64LIM := by
  cases f with
  | zero =>
    rw [bagCountAux_zero] at h
    exact absurd h (by simp)
  | succ f =>
    cases hl : lookupC g c with
    | none =>
      rw [bagCountAux_none hl] at h
      exact absurd h (by simp)
    | some cl =>
      cases cl with
      | nil =>
        rw [bagCountAux_nil hl] at h
        have h2 : BRes.ok 1 = BRes.ok n := h
        injection h2 with h2
        rw [← h2]
        norm_num [U64LIM]
      | cons ct rest =>
        rw [bagCountAux_cons hl] at h
        cases hs : bagCountSum f g (ct :: rest) with
        | ok s =>
          rw [hs] at h
          have h2 : BRes.ok ((s + 1) % U64LIM) = BRes.ok n := h
          injection h2 with h2
          rw [← h2]
          exact Nat.mod_lt _ (by norm_num [U64LIM])
        | timeout => rw [hs] at h; exact absurd h (by simp)
        | panic => rw [hs] at h; exact absurd h (by simp)

/-- One wrapping step of the sum agrees with the wrapped mathematical sum. -/
theorem wrap_step (a b s : Nat) :
    (a * (b % U64LIM) % U64LIM + s % U64LIM) % U64LIM = (a * b + s) % U64LIM := by
  have hb : b % U64LIM ≡ b [MOD U64LIM] := Nat.mod_modEq b U64LIM
  have hs : s % U64LIM ≡ s [MOD U64LIM] := Nat.mod_modEq s U64LIM
  have h1 : a * (b % U64LIM) % U64LIM ≡ a * b [MOD U64LIM] :=
    (Nat.mod_modEq _ _).trans (hb.mul_left a)
  exact h1.add hs

theorem bc_sum_spec_mod (g : CGraph) : ∀ (cl : List Content) (ns : List Nat),
    cl.length = ns.length →
    (∀ p ∈ cl.zip ns, ∃ f, bagCountAux f g p.1.color = .ok (p.2 % U64LIM)) →
    ∃ F, bagCountSum F g cl =
      .ok ((((cl.zip ns).map (fun p => p.1.count * p.2)).sum) % U64LIM) := by
  intro cl
  induction cl with
  | nil =>
    intro ns _ _
    exact ⟨0, by simpa using bagCountSum_nil 0 g⟩
  | cons ct cl2 ih =>
    intro ns hlen hmem
    cases ns with
    | nil => simp at hlen
    | cons n0 ns2 =>
      obtain ⟨f1, h1⟩ := hmem (ct, n0) (by simp)
      obtain ⟨F2, h2⟩ := ih ns2 (by simpa using hlen)
        (fun p hp => hmem p (by simp [hp]))
      refine ⟨max f1 F2, ?_⟩
      rw [bagCountSum_cons,
        (bc_mono_joint f1 g).1 (max f1 F2) ct.color _ (Nat.le_max_left _ _) h1,
        (bc_mono_joint F2 g).2 (max f1 F2) cl2 _ (Nat.le_max_right _ _) h2]
      simp only [List.zip_cons_cons, List.map_cons, List.sum_cons]
      rw [wrap_step]

/-- Every derivable spec total is at least 1 (the "1 for itself"). -/
theorem specTotal_pos {g : CGraph} {c : String} {n : Nat} (h : SpecTotal g c n) :
    1 ≤ n := by
  cases h
  omega

/-- The descent computes the spec total `T` wrapped at `2 ^ 64`, with
enough fuel. -/
theorem bagCount_spec_mod (g : CGraph) (c : String) (n : Nat) (h : SpecTotal g c n) :
    ∃ f, bagCountAux f g c = .ok (n % U64LIM) := by
  induction h with
  | mk c cl ns hl hlen _ ih =>
    obtain ⟨F, hsum⟩ := bc_sum_spec_mod g cl ns hlen ih
    cases cl with
    | nil =>
      refine ⟨1, ?_⟩
      rw [bagCountAux_nil hl]
      congr 1
    | cons ct rest =>
      refine ⟨F + 1, ?_⟩
      rw [bagCountAux_cons hl, hsum]
      show BRes.ok
          (((((ct :: rest).zip ns).map (fun p => p.1.count * p.2)).sum % U64LIM + 1) %
            U64LIM) =
        BRes.ok ((1 + (((ct :: rest).zip ns).map (fun p => p.1.count * p.2)).sum) % U64LIM)
      congr 1
      rw [Nat.add_comm 1 _]
      exact (Nat.mod_modEq _ _).add_right 1

/-- When the spec total fits in `u64`, the descent computes it exactly and
the public result is exactly the total minus one. -/
theorem bagCount_spec_exact (g : CGraph) (c : String) (n : Nat) (h : SpecTotal g c n)
    (hlt : n < U64LIM) :
    ∃ f, bagCountAux f g c = .ok n ∧ find_bag_count f c g = .ok (n - 1) := by
  obtain ⟨f, hf⟩ := bagCount_spec_mod g c n h
  rw [Nat.mod_eq_of_lt hlt] at hf
  refine ⟨f, hf, ?_⟩
  rw [find_bag_count_ok hf, wrapPred_of_pos (specTotal_pos h)]

/-! ### Concrete graphs used by counterexamples and witnesses -/

/-- A one-color contains graph whose bag contains itself. -/
def gcyc : CGraph := [("a", [⟨1, "a"⟩])]

/-- A one-color contains graph whose bag is empty. -/
def gEmptyA : CGraph := [("a", [])]

/-- Two bags containing each other. -/
def cyc2bags : List Bag := [⟨"a", [⟨1, "b"⟩]⟩, ⟨"b", [⟨1, "a"⟩]⟩]

/-- The contained-by graph of the two mutually containing bags. -/
def cbgCyc : CBGraph := bags_to_contained_by_graph cyc2bags

theorem gcyc_reach {d : String} (h : ReachC gcyc "a" d) : d = "a" := by
  induction h with
  | refl => rfl
  | tail _ hstep ih =>
    obtain ⟨ct, hmem, hcol⟩ := hstep
    rw [ih] at hmem
    have hmem2 : ct ∈ [(⟨1, "a"⟩ : Content)] := hmem
    rw [List.mem_singleton.1 hmem2] at hcol
    exact hcol.symm

theorem gcyc_diverges : ∀ f, bagCountAux f gcyc "a" = .timeout := by
  intro f
  induction f with
  | zero => exact bagCountAux_zero gcyc "a"
  | succ f ih =>
    have hl : lookupC gcyc "a" = some [⟨1, "a"⟩] := rfl
    rw [bagCountAux_cons hl, bagCountSum_cons]
    have hcol : (⟨1, "a"⟩ : Content).color = "a" := rfl
    rw [hcol, ih]

theorem find_bag_count_timeout {f : Nat} {c : String} {g : CGraph}
    (h : bagCountAux f g c = .timeout) : find_bag_count f c g = .timeout := by
  unfold find_bag_count
  rw [h]

theorem find_bag_count_panic {f : Nat} {c : String} {g : CGraph}
    (h : bagCountAux f g c = .panic) : find_bag_count f c g = .panic := by
  unfold find_bag_count
  rw [h]

theorem gEmptyA_reach {d : String} (h : ReachC gEmptyA "a" d) : d = "a" := by
  induction h with
  | refl => rfl
  | tail _ hstep ih =>
    obtain ⟨ct, hmem, _⟩ := hstep
    rw [ih] at hmem
    exact absurd hmem (by simp [lookupC, gEmptyA])

theorem gEmptyA_no_self_cycle {d : String} (hd : ReachC gEmptyA "a" d) :
    ¬ Relation.TransGen (cStep gEmptyA) d d := by
  rw [gEmptyA_reach hd]
  intro h
  cases h with
  | single hstep =>
    obtain ⟨ct, hmem, _⟩ := hstep
    exact absurd hmem (by simp [lookupC, gEmptyA])
  | tail h1 hstep =>
    have hb2 := gEmptyA_reach (Relation.TransGen.to_reflTransGen h1)
    obtain ⟨ct, hmem, _⟩ := hstep
    rw [hb2] at hmem
    exact absurd hmem (by simp [lookupC, gEmptyA])

/-- A graph whose spec total for "a" is `2^64 + 1`: the bag holds `2^63`
empty bags of each of two colors, so the `u64` sum wraps. -/
def gOver : CGraph := [("a", [⟨2 ^ 63, "b"⟩, ⟨2 ^ 63, "c"⟩]), ("b", []), ("c", [])]

/-- A graph whose wrapped inner total for "a" is 0: `2^63` plus `2^63 - 1`
empty sub-bags sum to `2^64 - 1`, and the final `+ 1u64` wraps to 0. -/
def gWrap : CGraph := [("a", [⟨2 ^ 63, "b"⟩, ⟨2 ^ 63 - 1, "c"⟩]), ("b", []), ("c", [])]

theorem gOver_spec_total : SpecTotal gOver "a" (U64LIM + 1) := by
  have hb : SpecTotal gOver "b" 1 :=
    SpecTotal.mk "b" [] [] rfl rfl (fun p hp => absurd hp (by simp))
  have hc : SpecTotal gOver "c" 1 :=
    SpecTotal.mk "c" [] [] rfl rfl (fun p hp => absurd hp (by simp))
  have hchild : ∀ p ∈ ([⟨2 ^ 63, "b"⟩, ⟨2 ^ 63, "c"⟩] : List Content).zip [1, 1],
      SpecTotal gOver p.1.color p.2 := by
    intro p hp
    simp only [List.zip_cons_cons, List.zip_nil_right, List.mem_cons] at hp
    rcases hp with rfl | hp2
    · exact hb
    · rcases hp2 with rfl | hp3
      · exact hc
      · exact absurd hp3 (by simp)
  have ha : SpecTotal gOver "a"
      (1 + ((([⟨2 ^ 63, "b"⟩, ⟨2 ^ 63, "c"⟩] : List Content).zip [1, 1]).map
        (fun p => p.1.count * p.2)).sum) :=
    SpecTotal.mk "a" [⟨2 ^ 63, "b"⟩, ⟨2 ^ 63, "c"⟩] [1, 1] rfl rfl hchild
  have heq : (1 + ((([⟨2 ^ 63, "b"⟩, ⟨2 ^ 63, "c"⟩] : List Content).zip [1, 1]).map
      (fun p => p.1.count * p.2)).sum) = U64LIM + 1 := by decide
  exact heq ▸ ha

/-! ### Claims -/

/-- Claim C1 counterexample: on `gOver` the spec total of "a" is
`2^64 + 1`, so the claim predicts `find_bag_count` = `2^64`; the source's
`u64` sum wraps instead and the query returns 0 at every fuel. -/
theorem claim1_counterexample :
    SpecTotal gOver "a" (U64LIM + 1) ∧
    find_bag_count 2 "a" gOver = .ok 0 ∧
    (∀ f n, find_bag_count f "a" gOver = .ok n → n = 0) := by
  refine ⟨gOver_spec_total, by decide, ?_⟩
  intro f n h
  cases f with
  | zero =>
    rw [show find_bag_count 0 "a" gOver = .timeout from rfl] at h
    exact absurd h (by simp)
  | succ f =>
    cases f with
    | zero =>
      rw [show find_bag_count 1 "a" gOver = .timeout by decide] at h
      exact absurd h (by simp)
    | succ f =>
      have haux : bagCountAux (f + 1 + 1) gOver "a" = .ok 1 :=
        (bc_mono_joint 2 gOver).1 (f + 1 + 1) "a" 1 (by omega) (by decide)
      rw [find_bag_count_ok haux] at h
      have h2 : BRes.ok (wrapPred 1) = BRes.ok n := h
      injection h2 with h2
      rw [← h2]
      decide

/-- Claim C1 (amended): `find_bag_count` totals in wrapping `u64`
arithmetic: for every color with spec total `T(c)` (the recursive "1 plus
the sum over direct contents of count × recursive total") the inner
recursion computes `T(c) mod 2^64`, and whenever `T(c) < 2^64` — as on
both samples — the public result is exactly `T(c) - 1`: 32 on the 9-line
sample and 126 on the 7-line chain sample. -/
theorem claim1_find_bag_count_matches_spec_total :
    (∀ (g : CGraph) (c : String) (n : Nat), SpecTotal g c n →
      ∃ f, bagCountAux f g c = .ok (n % U64LIM)) ∧
    (∀ (g : CGraph) (c : String) (n : Nat), SpecTotal g c n → n < U64LIM →
      ∃ f, bagCountAux f g c = .ok n ∧ find_bag_count f c g = .ok (n - 1)) ∧
    find_bag_count 20 "shiny gold" cg1 = .ok 32 ∧
    find_bag_count 20 "shiny gold" cg2 = .ok 126 :=
  ⟨bagCount_spec_mod, bagCount_spec_exact, by decide, by decide⟩

theorem claim1_witness :
    ∃ f, bagCountAux f gEmptyA "a" = .ok 1 ∧ find_bag_count f "a" gEmptyA = .ok 0 :=
  claim1_find_bag_count_matches_spec_total.2.1 gEmptyA "a" 1
    (show SpecTotal gEmptyA "a" 1 from
      SpecTotal.mk "a" [] [] rfl rfl (fun p hp => absurd hp (by simp)))
    (by decide)

/-- Claim C2: `find_potential_containers` returns exactly the colors from
which the target is reachable through one or more direct-containment
edges, the empty set when the target has no containers, and on the 9-line
sample a set of cardinality 4 for "shiny gold" and the empty set for
"light red". -/
theorem claim2_potential_containers_reachability :
    (∀ (g : CBGraph) (t x : String),
      x ∈ find_potential_containers t g ↔ Relation.TransGen (cbStep g) t x) ∧
    (∀ (g : CBGraph) (t : String), lookupCB g t = none →
      find_potential_containers t g = []) ∧
    (find_potential_containers "shiny gold" cbg1).toFinset.card = 4 ∧
    find_potential_containers "light red" cbg1 = [] := by
  refine ⟨mem_fpc_iff, ?_, by decide, by decide⟩
  intro g t hnone
  apply List.eq_nil_iff_forall_not_mem.2
  intro x hx
  have hnostep : ∀ y, ¬ cbStep g t y := by
    intro y hy
    unfold cbStep at hy
    rw [hnone] at hy
    exact absurd hy (by simp)
  have htg := (mem_fpc_iff g t x).1 hx
  clear hx
  induction htg with
  | single hstep => exact hnostep _ hstep
  | tail _ _ ih => exact ih

theorem claim2_witness : find_potential_containers "z" ([] : CBGraph) = [] :=
  claim2_potential_containers_reachability.2.1 [] "z" rfl

/-- Claim C3: the sample line with three content clauses parses to a Bag
with color "muted lime" and exactly the three expected (count, color)
contents, and the "no other bags" line parses to "dotted teal" with empty
contents. -/
theorem claim3_parser_round_trip :
    Bag.new_from_rule
        "muted lime bags contain 1 wavy lime bag, 1 vibrant green bag, 3 light yellow bags." =
      .ok ⟨"muted lime", [⟨1, "wavy lime"⟩, ⟨1, "vibrant green"⟩, ⟨3, "light yellow"⟩]⟩ ∧
    Bag.new_from_rule "dotted teal bags contain no other bags." =
      .ok ⟨"dotted teal", []⟩ :=
  ⟨by decide, by decide⟩

theorem claim4_witness : to_bags [some "broken line with no contain clause"] ≠ .ok [] :=
  (claim4_to_bags_error_asymmetry [some "broken line with no contain clause"]).2
    ⟨"broken line with no contain clause", by simp, fun b hb => by
      rw [show Bag.new_from_rule "broken line with no contain clause" =
        .error "invalid rule" by decide] at hb
      exact absurd hb (by simp)⟩ []

/-- Claim C5 counterexample: on the one-color self-containing graph every
reachable color has an entry, yet the query never succeeds at any fuel
(the Rust recursion diverges), refuting "when every reachable color has an
entry, the query succeeds". -/
theorem claim5_counterexample :
    (∀ d, ReachC gcyc "a" d → (lookupC gcyc d).isSome) ∧
    (∀ f n, find_bag_count f "a" gcyc ≠ .ok n) := by
  constructor
  · intro d hd
    rw [gcyc_reach hd]
    rfl
  · intro f n h
    rw [find_bag_count_timeout (gcyc_diverges f)] at h
    exact absurd h (by simp)

/-- Claim C5 (amended): a color with no entry fails immediately with the
lookup panic; when any reachable color has no entry the query never
returns a count (it panics or diverges); and when every reachable color
has an entry AND the reachable contains-relation is acyclic, the query
succeeds with enough fuel. -/
theorem claim5_lookup_error_semantics :
    (∀ (g : CGraph) (c : String) (f : Nat), lookupC g c = none →
      find_bag_count (f + 1) c g = .panic) ∧
    (∀ (g : CGraph) (c : String), (∃ d, ReachC g c d ∧ lookupC g d = none) →
      ∀ f n, find_bag_count f c g ≠ .ok n) ∧
    (∀ (g : CGraph) (c : String),
      (∀ d, ReachC g c d → (lookupC g d).isSome) →
      (∀ d, ReachC g c d → ¬ Relation.TransGen (cStep g) d d) →
      ∃ f n, find_bag_count f c g = .ok n) := by
  refine ⟨?_, ?_, ?_⟩
  · intro g c f hl
    exact find_bag_count_panic (bagCountAux_none hl)
  · intro g c hbad f n h
    obtain ⟨m, hm, _⟩ := find_bag_count_ok_inv h
    exact (bc_noRes_joint f g).1 c m hbad hm
  · intro g c hpres hacyc
    obtain ⟨f, n, h⟩ := bc_complete_acyclic g c hpres hacyc
    exact ⟨f, wrapPred n, find_bag_count_ok h⟩

theorem claim5_witness : ∃ f n, find_bag_count f "a" gEmptyA = .ok n :=
  claim5_lookup_error_semantics.2.2 gEmptyA "a"
    (fun d hd => by rw [gEmptyA_reach hd]; rfl)
    (fun d hd => gEmptyA_no_self_cycle hd)

/-- Claim C6 counterexample: the parser accepts a line with count token
"0" and produces a Content with count 0, refuting "the parser never
produces a Content with count 0". -/
theorem claim6_counterexample :
    ∃ b, Bag.new_from_rule "a bags contain 0 b bags." = .ok b ∧
      ∃ ct ∈ b.contents, ct.count = 0 :=
  ⟨⟨"a", [⟨0, "b"⟩]⟩, by decide, ⟨0, "b"⟩, by decide, rfl⟩

/-- Claim C6 (amended): every Content of an accepted line gets its count
as the value of a nonempty digit token matched from one of the line's
clauses (the matcher requires at least one digit), so counts are ≥ 0 but
not ≥ 1: the token "0" yields count 0. -/
theorem claim6_count_token_value :
    ∀ (rule : String) (b : Bag), Bag.new_from_rule rule = .ok b →
      ∀ ct ∈ b.contents, ∃ cp cs p ds C,
        ruleMatch rule.data = some (cp, cs) ∧ p ∈ splitComma cs ∧
        contentMatch p = some (ds, C) ∧ ds ≠ [] ∧
        ct.count = digitsVal ds ∧ ct.color = String.mk C := by
  intro rule b hb ct hct
  obtain ⟨cp, cs, hm, hcoll, _⟩ := bag_rule_ok_parts hb
  obtain ⟨p, hp, hcp⟩ := mem_collectContents hcoll hct
  obtain ⟨ds, C, hcm, hne, hcount, hcolor⟩ := content_rule_ok hcp
  exact ⟨cp, cs, p, ds, C, hm, hp, hcm, hne, hcount, hcolor⟩

theorem claim6_witness :
    ∃ cp cs p ds C,
      ruleMatch "a bags contain 2 b bags.".data = some (cp, cs) ∧ p ∈ splitComma cs ∧
      contentMatch p = some (ds, C) ∧ ds ≠ [] ∧
      (⟨2, "b"⟩ : Content).count = digitsVal ds ∧
      (⟨2, "b"⟩ : Content).color = String.mk C :=
  claim6_count_token_value "a bags contain 2 b bags." ⟨"a", [⟨2, "b"⟩]⟩
    (by decide) ⟨2, "b"⟩ (by decide)

/-- Claim C7 counterexample: a clause with the non-numeric count token "x"
fails the content grammar and is silently dropped — the line parses
successfully with empty contents — refuting "causes a fatal parse error
for that line". -/
theorem claim7_counterexample :
    Bag.new_from_rule "a bags contain x b bags." = .ok ⟨"a", []⟩ ∧
    contentMatch "x b bags.".data = none :=
  ⟨by decide, by decide⟩

/-- Claim C7 (amended): on every line matching the outer rule grammar, a
content clause that fails the content grammar (in particular one with a
non-numeric count token) is silently dropped while the remaining clauses
parse normally, and the line still parses — its contents are exactly the
matching clauses, in order; a fatal parse error for the line occurs
exactly when some clause's matched numeric count token exceeds the
unsigned-64-bit range. -/
theorem claim7_clause_handling :
    (∀ (rule : String) (cp cs : List Char), ruleMatch rule.data = some (cp, cs) →
      (∀ p ∈ splitComma cs, ((contentMatch p).map (fun q => digitsVal q.1)).getD 0 < U64LIM) →
      Bag.new_from_rule rule = .ok ⟨String.mk cp,
        (splitComma cs).filterMap
          (fun p => (contentMatch p).map
            (fun q => (⟨digitsVal q.1, String.mk q.2⟩ : Content)))⟩) ∧
    (∀ (rule : String) (cp cs : List Char), ruleMatch rule.data = some (cp, cs) →
      (∃ p ∈ splitComma cs, U64LIM ≤ ((contentMatch p).map (fun q => digitsVal q.1)).getD 0) →
      Bag.new_from_rule rule = .error "invalid contents") := by
  constructor
  · intro rule cp cs hm hbound
    have h2 : ∀ p ∈ splitComma cs, ∀ ds C, contentMatch p = some (ds, C) →
        digitsVal ds < U64LIM := by
      intro p hp ds C hcm
      have hb := hbound p hp
      rw [hcm] at hb
      simpa using hb
    rw [bag_rule_eq hm, collectContents_no_overflow h2]
  · intro rule cp cs hm hover
    obtain ⟨p, hp, hge⟩ := hover
    cases hcm : contentMatch p with
    | none =>
      rw [hcm] at hge
      simp at hge
      exact absurd hge (by norm_num [U64LIM])
    | some q =>
      obtain ⟨ds, C⟩ := q
      rw [hcm] at hge
      simp at hge
      rw [bag_rule_eq hm, collectContents_overflow ⟨p, hp, ds, C, hcm, hge⟩]

theorem claim7_witness :
    Bag.new_from_rule "a bags contain 1 b bag, x c bags." = .ok ⟨"a", [⟨1, "b"⟩]⟩ := by
  have h := claim7_clause_handling.1 "a bags contain 1 b bag, x c bags."
    "a".data "1 b bag, x c bags.".data (by decide) (by decide)
  rw [h]
  decide

/-- Claim C8: on every contained-by graph, cyclic ones included, the
closure walk finishes within the `cbBound` fuel: the visited check lets
each color be inserted at most once, so the recursion cannot run out. -/
theorem claim8_closure_terminates :
    ∀ (g : CBGraph) (c : String),
      ∃ res, fpcAux (cbBound g) g c [] = some res ∧ find_potential_containers c g = res :=
  fun g c => ⟨find_potential_containers c g, find_pc_eq g c, rfl⟩

/-- Claim C9 counterexample: on the contained-by graph of two mutually
containing bags, the target "a" appears in its own result set, refuting
"the result set never contains t itself". -/
theorem claim9_counterexample : "a" ∈ find_potential_containers "a" cbgCyc := by decide

/-- Claim C9 (amended): the result set of `find_potential_containers`
contains the target exactly when the target transitively contains itself;
whenever the containment relation has no cycle through the target, the
target is never in its own result set. -/
theorem claim9_target_excluded_when_acyclic :
    ∀ (g : CBGraph) (t : String), ¬ Relation.TransGen (cbStep g) t t →
      t ∉ find_potential_containers t g :=
  fun g t h hmem => h ((mem_fpc_iff g t t).1 hmem)

theorem claim9_witness : "x" ∉ find_potential_containers "x" ([] : CBGraph) :=
  claim9_target_excluded_when_acyclic [] "x" (fun h => by
    cases h with
    | single hstep => exact absurd hstep (by simp [cbStep, lookupCB])
    | tail _ hstep => exact absurd hstep (by simp [cbStep, lookupCB]))

/-- Claim C10 counterexample: "a" is present in `gWrap` (with `2^63` and
`2^63 - 1` empty sub-bags), its wrapped `u64` inner total is 0, and the
public `- 1u64` wraps to `2^64 - 1`: the subtraction does underflow for a
color present in the graph. -/
theorem claim10_counterexample :
    lookupC gWrap "a" = some [⟨2 ^ 63, "b"⟩, ⟨2 ^ 63 - 1, "c"⟩] ∧
    bagCountAux 2 gWrap "a" = .ok 0 ∧
    find_bag_count 2 "a" gWrap = .ok (U64LIM - 1) :=
  ⟨by decide, by decide, by decide⟩

/-- Claim C10 (amended): a color mapped to an empty contents set yields
`find_bag_count` exactly 0 (inner total literally 1, minus 1 for the outer
bag). Every successful inner total lies in the `u64` range, and the public
`- 1u64` is a true decrement exactly when the wrapped inner total is at
least 1; for a color whose wrapped inner total is 0 — which a present
color can produce once the `u64` sum wraps — the subtraction wraps to
`2^64 - 1` instead. -/
theorem claim10_empty_contents_zero :
    (∀ (g : CGraph) (c : String) (f : Nat), lookupC g c = some [] →
      find_bag_count (f + 1) c g = .ok 0) ∧
    (∀ (g : CGraph) (c : String) (f n : Nat), bagCountAux f g c = .ok n → n < U64LIM) ∧
    (∀ (g : CGraph) (c : String) (f n : Nat), bagCountAux f g c = .ok n → 1 ≤ n →
      find_bag_count f c g = .ok (n - 1)) ∧
    (∀ (g : CGraph) (c : String) (f : Nat), bagCountAux f g c = .ok 0 →
      find_bag_count f c g = .ok (U64LIM - 1)) := by
  refine ⟨?_, ?_, ?_, ?_⟩
  · intro g c f hl
    rw [find_bag_count_ok (bagCountAux_nil hl)]
    decide
  · intro g c f n h
    exact bagCountAux_ok_lt h
  · intro g c f n h hpos
    rw [find_bag_count_ok h, wrapPred_of_pos hpos]
  · intro g c f h
    rw [find_bag_count_ok h]
    decide

theorem claim10_witness : find_bag_count 1 "a" gEmptyA = .ok 0 :=
  claim10_empty_contents_zero.1 gEmptyA "a" 0 rfl

end Adv7
